import Mathlib

/-!
Verification of the three LeetCode solutions in this repository:

* `src/Rust/1_Two_Sum.rs`            — `two_sum`
* `src/Rust/2_valid_parentheses.rs`  — `is_valid`
* `src/Rust/3_merge_two_sorted_lists.rs` — `merge_two_lists`

Each Rust function is shallowly embedded as an executable Lean definition.
Machine integers (`i32`) are modelled as `Int` with explicit two's-complement
wrapping (`wrap32`) where overflow can occur; chains (`Option<Box<ListNode>>`)
are modelled as `List Int`; the `HashMap<i32, usize>` of `two_sum` is modelled
as an association list whose insert prepends, so that lookup finds the most
recently inserted binding for a key, exactly the overwrite behaviour of
`HashMap::insert` followed by `HashMap::get`.
-/

namespace LeetCode

/-! ### i32 arithmetic -/

/-- The i32 range and two's-complement wrap-around, used where the Rust code
performs `i32` arithmetic that can overflow (release semantics: wrapping). -/
def wrap32 (x : Int) : Int :=
  (x + 2 ^ 31) % 2 ^ 32 - 2 ^ 31

/-- `x` fits in an `i32`. -/
def InRange32 (x : Int) : Prop :=
  -2 ^ 31 ≤ x ∧ x < 2 ^ 31

instance (x : Int) : Decidable (InRange32 x) := by
  unfold InRange32; infer_instance

/-- Checked i32 subtraction: `none` models the overflow panic of debug-mode
Rust (`attempt to subtract with overflow`). -/
def checkedSub32 (a b : Int) : Option Int :=
  if InRange32 (a - b) then some (a - b) else none

/-! ### `two_sum` (src/Rust/1_Two_Sum.rs)

```rust
pub fn two_sum(nums: Vec<i32>, target: i32) -> Vec<i32> {
    let mut num_indices = std::collections::HashMap::new();
    for (i, &num) in nums.iter().enumerate() {
        let complement = target - num;
        if let Some(&index) = num_indices.get(&complement) {
            return vec![index as i32, i as i32];
        }
        num_indices.insert(num, i);
    }
    vec![]
}
```
-/

/-- Lookup in the association list modelling `num_indices`: first match wins,
and since insertion prepends, the first match is the most recent insertion —
the same value `HashMap::get` returns after overwriting inserts. -/
def lookupIdx : List (Int × Nat) → Int → Option Nat
  | [], _ => none
  | (k, v) :: rest, key => if k = key then some v else lookupIdx rest key

/-- The loop of `two_sum`: `rest` is the part of `nums` not yet scanned, `i`
the index of its head in `nums`, `m` the map of seen values. The complement
is the wrapping i32 difference `target - num`. -/
def twoSumGo (target : Int) : List Int → Nat → List (Int × Nat) → List Nat
  | [], _, _ => []
  | num :: rest, i, m =>
    match lookupIdx m (wrap32 (target - num)) with
    | some index => [index, i]
    | none => twoSumGo target rest (i + 1) ((num, i) :: m)

/-- `two_sum`, wrapping (release) i32 semantics. Returned indices are the
`usize` values; the Rust `as i32` casts are lossless for any list a `Vec`
can hold on the sizes considered here. -/
def two_sum (nums : List Int) (target : Int) : List Nat :=
  twoSumGo target nums 0 []

/-- The loop of `two_sum` under debug (overflow-checking) semantics: the
complement `target - num` panics — modelled as `none` — when the difference
leaves the i32 range. -/
def twoSumGoChecked (target : Int) : List Int → Nat → List (Int × Nat) → Option (List Nat)
  | [], _, _ => some []
  | num :: rest, i, m =>
    match checkedSub32 target num with
    | none => none
    | some complement =>
      match lookupIdx m complement with
      | some index => some [index, i]
      | none => twoSumGoChecked target rest (i + 1) ((num, i) :: m)

/-- `two_sum` under debug (overflow-checking) semantics; `none` is a panic. -/
def two_sumChecked (nums : List Int) (target : Int) : Option (List Nat) :=
  twoSumGoChecked target nums 0 []

/-- The state of `num_indices` after scanning `nums[0..i)`: a key is bound
exactly to the largest index `v < i` at which it occurs (later inserts
overwrite earlier ones, and lookup returns the stored binding). -/
def MapInv (nums : List Int) (i : Nat) (m : List (Int × Nat)) : Prop :=
  ∀ key v, lookupIdx m key = some v ↔
    (v < i ∧ nums.getD v 0 = key ∧ ∀ k, v < k → k < i → nums.getD k 0 ≠ key)

/-! ### `merge_two_lists` (src/Rust/3_merge_two_sorted_lists.rs)

```rust
pub fn merge_two_lists(list1: Option<Box<ListNode>>, list2: Option<Box<ListNode>>) -> Option<Box<ListNode>> {
    match (list1, list2) {
        (None, _) => list2,
        (_, None) => list1,
        (Some(mut l1), Some(mut l2)) => {
            if l1.val < l2.val {
                let next = l1.next.take();
                l1.next = merge_two_lists(next, Some(l2));
                Some(l1)
            } else {
                let next = l2.next.take();
                l2.next = merge_two_lists(Some(l1), next);
                Some(l2)
            }
        }
    }
}
```
A chain `Option<Box<ListNode>>` is the list of the `val` fields along the
`next` links; `None` is `[]`. -/

/-- `merge_two_lists` on chains of values. -/
def merge_two_lists : List Int → List Int → List Int
  | [], list2 => list2
  | list1, [] => list1
  | l1 :: rest1, l2 :: rest2 =>
    if l1 < l2 then l1 :: merge_two_lists rest1 (l2 :: rest2)
    else l2 :: merge_two_lists (l1 :: rest1) rest2
termination_by list1 list2 => list1.length + list2.length

/-- The same recursion on nodes that carry, next to the `val` the code
compares, a tag recording their identity, so that claims about node identity
(which input a node came from, relative order of equal-valued nodes) can be
stated. The comparison reads only the value component, as `l1.val < l2.val`
reads only `val`. -/
def merge_two_listsTagged : List (Int × Nat) → List (Int × Nat) → List (Int × Nat)
  | [], list2 => list2
  | list1, [] => list1
  | l1 :: rest1, l2 :: rest2 =>
    if l1.1 < l2.1 then l1 :: merge_two_listsTagged rest1 (l2 :: rest2)
    else l2 :: merge_two_listsTagged (l1 :: rest1) rest2
termination_by list1 list2 => list1.length + list2.length

/-! ### `is_valid` (src/Rust/2_valid_parentheses.rs)

```rust
fn is_valid(s: &str) -> bool {
    let mut stack = Vec::new();
    for c in s.chars() {
        match c {
            '(' | '{' | '[' => stack.push(c),
            ')' => if stack.pop() != Some('(') { return false; },
            '}' => if stack.pop() != Some('{') { return false; },
            ']' => if stack.pop() != Some('[') { return false; },
            _ => {}
        }
    }
    stack.is_empty()
}
```
A string is a `List Char`; the stack is a `List Char` with its top at the
head; the early `return false` is an `Option` short-circuit. -/

/-- One iteration of the `for` loop of `is_valid`: `none` models the early
`return false`. -/
def validStep (stack : List Char) (c : Char) : Option (List Char) :=
  if c = '(' || c = '{' || c = '[' then some (c :: stack)
  else if c = ')' then
    match stack with
    | '(' :: rest => some rest
    | _ => none
  else if c = '}' then
    match stack with
    | '{' :: rest => some rest
    | _ => none
  else if c = ']' then
    match stack with
    | '[' :: rest => some rest
    | _ => none
  else some stack

/-- The `for` loop of `is_valid`, from a given stack: the final stack, or
`none` if some closing bracket mismatched or popped an empty stack. -/
def validRun : List Char → List Char → Option (List Char)
  | [], stack => some stack
  | c :: cs, stack =>
    match validStep stack c with
    | some stack' => validRun cs stack'
    | none => none

/-- `is_valid`: run the loop from the empty stack; `false` on an early
return, otherwise `stack.is_empty()`. -/
def is_valid (s : List Char) : Bool :=
  match validRun s [] with
  | some stack => stack.isEmpty
  | none => false

/-- `c` is one of the three opening brackets. -/
def isOpenBracket (c : Char) : Bool :=
  c = '(' || c = '{' || c = '['

/-- `c` is one of the three closing brackets. -/
def isCloseBracket (c : Char) : Bool :=
  c = ')' || c = '}' || c = ']'

/-- `c` is one of the six bracket characters. -/
def isBracket (c : Char) : Bool :=
  isOpenBracket c || isCloseBracket c

/-- Modelled from the spec: `o` and `c` are an opening bracket and the
closing bracket of the same type. -/
def MatchingPair (o c : Char) : Prop :=
  (o = '(' ∧ c = ')') ∨ (o = '{' ∧ c = '}') ∨ (o = '[' ∧ c = ']')

/-- Modelled from the spec: a well-formed nested bracket sequence — every
closing bracket matches the most recently opened, still-unclosed bracket of
the same type, and every opened bracket is eventually closed. This is the
usual grammar of the Dyck language over three bracket types, written
independently of the stack machine. -/
inductive Balanced : List Char → Prop where
  | nil : Balanced []
  | wrap (o c : Char) (w : List Char) :
      MatchingPair o c → Balanced w → Balanced (o :: w ++ [c])
  | append (u v : List Char) :
      Balanced u → Balanced v → Balanced (u ++ v)

/-! ### Lemmas about `merge_two_lists` -/

theorem merge_two_lists_perm (l1 l2 : List Int) :
    (merge_two_lists l1 l2).Perm (l1 ++ l2) := by
  induction l1, l2 using merge_two_lists.induct with
  | case1 l2 => simp [merge_two_lists]
  | case2 l1 => simp [merge_two_lists]
  | case3 a r1 b r2 h ih =>
    simp only [merge_two_lists, if_pos h, List.cons_append]
    exact ih.cons a
  | case4 a r1 b r2 h ih =>
    simp only [merge_two_lists, if_neg h]
    exact (ih.cons b).trans List.perm_middle.symm

theorem merge_two_lists_length (l1 l2 : List Int) :
    (merge_two_lists l1 l2).length = l1.length + l2.length := by
  have := (merge_two_lists_perm l1 l2).length_eq
  simpa using this

theorem merge_two_lists_sorted :
    ∀ l1 l2 : List Int, l1.Sorted (· ≤ ·) → l2.Sorted (· ≤ ·) →
      (merge_two_lists l1 l2).Sorted (· ≤ ·) := by
  intro l1 l2
  induction l1, l2 using merge_two_lists.induct with
  | case1 l2 => intro _ h2; simpa [merge_two_lists] using h2
  | case2 l1 => intro h1 _; simpa [merge_two_lists] using h1
  | case3 a r1 b r2 h ih =>
    intro h1 h2
    obtain ⟨ha, hr1⟩ := List.sorted_cons.mp h1
    obtain ⟨hb, hr2⟩ := List.sorted_cons.mp h2
    simp only [merge_two_lists, if_pos h]
    rw [List.sorted_cons]
    refine ⟨?_, ih hr1 h2⟩
    intro y hy
    have hy' : y ∈ r1 ++ b :: r2 := (merge_two_lists_perm r1 (b :: r2)).mem_iff.mp hy
    rcases List.mem_append.mp hy' with hmem | hmem
    · exact ha y hmem
    · rcases List.mem_cons.mp hmem with rfl | hmem
      · exact le_of_lt h
      · exact le_of_lt (lt_of_lt_of_le h (hb y hmem))
  | case4 a r1 b r2 h ih =>
    intro h1 h2
    obtain ⟨ha, hr1⟩ := List.sorted_cons.mp h1
    obtain ⟨hb, hr2⟩ := List.sorted_cons.mp h2
    have hba : b ≤ a := le_of_not_lt h
    simp only [merge_two_lists, if_neg h]
    rw [List.sorted_cons]
    refine ⟨?_, ih h1 hr2⟩
    intro y hy
    have hy' : y ∈ (a :: r1) ++ r2 := (merge_two_lists_perm (a :: r1) r2).mem_iff.mp hy
    rcases List.mem_append.mp hy' with hmem | hmem
    · rcases List.mem_cons.mp hmem with rfl | hmem
      · exact hba
      · exact le_trans hba (ha y hmem)
    · exact hb y hmem

/-! ### Claim theorems about `merge_two_lists` -/

/-- C3: for every pair of non-decreasing chains `A` and `B`,
`merge_two_lists A B` is non-decreasing, has length `|A| + |B|`, and is a
permutation of the union of the two inputs (as a multiset of values). -/
theorem merge_two_lists_correct (l1 l2 : List Int)
    (h1 : l1.Sorted (· ≤ ·)) (h2 : l2.Sorted (· ≤ ·)) :
    (merge_two_lists l1 l2).Sorted (· ≤ ·) ∧
    (merge_two_lists l1 l2).length = l1.length + l2.length ∧
    (merge_two_lists l1 l2).Perm (l1 ++ l2) :=
  ⟨merge_two_lists_sorted l1 l2 h1 h2, merge_two_lists_length l1 l2,
    merge_two_lists_perm l1 l2⟩

/-- Witness for C3 at the spec example: merging `[1,2,4]` with `[1,3,4]`
gives a sorted permutation of length 6, and the output is `[1,1,2,3,4,4]`. -/
theorem merge_two_lists_correct_witness :
    ((merge_two_lists [1, 2, 4] [1, 3, 4]).Sorted (· ≤ ·) ∧
      (merge_two_lists [1, 2, 4] [1, 3, 4]).length =
        ([1, 2, 4] : List Int).length + ([1, 3, 4] : List Int).length ∧
      (merge_two_lists [1, 2, 4] [1, 3, 4]).Perm ([1, 2, 4] ++ [1, 3, 4])) ∧
    merge_two_lists [1, 2, 4] [1, 3, 4] = [1, 1, 2, 3, 4, 4] := by
  refine ⟨merge_two_lists_correct [1, 2, 4] [1, 3, 4] ?_ ?_, ?_⟩
  · simp
  · simp
  · simp [merge_two_lists]

/-- C8: the empty chain is a two-sided identity for `merge_two_lists`, the
non-empty input being returned unchanged; in particular merging `[]` with
`[0]` yields `[0]`. -/
theorem merge_two_lists_empty_identity :
    (∀ c : List Int, merge_two_lists [] c = c ∧ merge_two_lists c [] = c) ∧
    merge_two_lists [] [0] = [0] := by
  refine ⟨fun c => ⟨by simp [merge_two_lists], ?_⟩, by simp [merge_two_lists]⟩
  cases c with
  | nil => simp [merge_two_lists]
  | cons a l => simp [merge_two_lists]

/-- C4 counterexample: on equal head values the code's `if l1.val < l2.val`
is false, so the `else` branch places the node from the SECOND input first:
merging the single node `(1, tag 0)` from input 1 with `(1, tag 1)` from
input 2 yields the input-2 node first, not the input-1 node first as the
claim states. -/
theorem merge_two_listsTagged_tie_counterexample :
    merge_two_listsTagged [(1, 0)] [(1, 1)] = [(1, 1), (1, 0)] ∧
    merge_two_listsTagged [(1, 0)] [(1, 1)] ≠ [(1, 0), (1, 1)] := by
  have h : merge_two_listsTagged [(1, 0)] [(1, 1)] = [(1, 1), (1, 0)] := by
    simp [merge_two_listsTagged]
  exact ⟨h, by rw [h]; decide⟩

/-- C4 amended: when the current heads of the two inputs hold equal values,
the node from the SECOND input is placed before the node of equal value from
the first input (the strict `l1.val < l2.val` comparison fails on ties), and
the relative order of the nodes coming from a same input is preserved: with
input 1 tagged `0` and input 2 tagged `1`, the subsequence of the output
carrying each tag is exactly that input. -/
theorem merge_two_listsTagged_tie_and_stability :
    (∀ (a b : Int × Nat) (l1 l2 : List (Int × Nat)), a.1 = b.1 →
      merge_two_listsTagged (a :: l1) (b :: l2) =
        b :: merge_two_listsTagged (a :: l1) l2) ∧
    (∀ l1 l2 : List (Int × Nat),
      (∀ p ∈ l1, p.2 = 0) → (∀ p ∈ l2, p.2 = 1) →
      (merge_two_listsTagged l1 l2).filter (fun p => p.2 == 0) = l1 ∧
      (merge_two_listsTagged l1 l2).filter (fun p => p.2 == 1) = l2) := by
  constructor
  · intro a b l1 l2 hab
    have hnlt : ¬a.1 < b.1 := by rw [hab]; exact lt_irrefl _
    simp only [merge_two_listsTagged, if_neg hnlt]
  · intro l1 l2
    induction l1, l2 using merge_two_listsTagged.induct with
    | case1 l2 =>
      intro _ h2
      constructor
      · rw [merge_two_listsTagged, List.filter_eq_nil_iff]
        intro p hp
        simp [h2 p hp]
      · rw [merge_two_listsTagged, List.filter_eq_self]
        intro p hp
        simp [h2 p hp]
    | case2 l1 hne =>
      intro h1 _
      have hm : merge_two_listsTagged l1 [] = l1 := by
        cases l1 with
        | nil => simp [merge_two_listsTagged]
        | cons a l => simp [merge_two_listsTagged]
      rw [hm]
      constructor
      · rw [List.filter_eq_self]
        intro p hp
        simp [h1 p hp]
      · rw [List.filter_eq_nil_iff]
        intro p hp
        simp [h1 p hp]
    | case3 a r1 b r2 hlt ih =>
      intro h1 h2
      have ha : a.2 = 0 := h1 a (List.mem_cons_self a r1)
      have h1' : ∀ p ∈ r1, p.2 = 0 := fun p hp => h1 p (List.mem_cons_of_mem a hp)
      obtain ⟨ihf0, ihf1⟩ := ih h1' h2
      constructor
      · rw [merge_two_listsTagged, if_pos hlt, List.filter_cons_of_pos (by simp [ha]), ihf0]
      · rw [merge_two_listsTagged, if_pos hlt, List.filter_cons_of_neg (by simp [ha]), ihf1]
    | case4 a r1 b r2 hlt ih =>
      intro h1 h2
      have hb : b.2 = 1 := h2 b (List.mem_cons_self b r2)
      have h2' : ∀ p ∈ r2, p.2 = 1 := fun p hp => h2 p (List.mem_cons_of_mem b hp)
      obtain ⟨ihf0, ihf1⟩ := ih h1 h2'
      constructor
      · rw [merge_two_listsTagged, if_neg hlt, List.filter_cons_of_neg (by simp [hb]), ihf0]
      · rw [merge_two_listsTagged, if_neg hlt, List.filter_cons_of_pos (by simp [hb]), ihf1]

/-- Witness for the amended C4: a concrete tie taken from the second input
first, and a concrete stability instance. -/
theorem merge_two_listsTagged_tie_and_stability_witness :
    merge_two_listsTagged [(5, 0)] [(5, 1)] =
      (5, 1) :: merge_two_listsTagged [(5, 0)] [] ∧
    (merge_two_listsTagged [(1, 0), (2, 0)] [(1, 1)]).filter
      (fun p => p.2 == 0) = [(1, 0), (2, 0)] := by
  constructor
  · exact merge_two_listsTagged_tie_and_stability.1 (5, 0) (5, 1) [] [] rfl
  · exact (merge_two_listsTagged_tie_and_stability.2 [(1, 0), (2, 0)] [(1, 1)]
      (by decide) (by decide)).1

/-! ### Lemmas about `is_valid` -/

theorem validStep_open (st : List Char) (c : Char) (h : isOpenBracket c = true) :
    validStep st c = some (c :: st) := by
  simp only [isOpenBracket, Bool.or_eq_true, decide_eq_true_eq] at h
  rcases h with (rfl | rfl) | rfl <;> simp [validStep]

theorem validStep_close (st st' : List Char) (c : Char) (h : isCloseBracket c = true)
    (h2 : validStep st c = some st') : ∃ o, st = o :: st' ∧ MatchingPair o c := by
  simp only [isCloseBracket, Bool.or_eq_true, decide_eq_true_eq] at h
  rcases h with (rfl | rfl) | rfl
  · simp [validStep] at h2
    split at h2
    · next rest =>
      simp at h2
      exact ⟨'(', by simp [h2], Or.inl ⟨rfl, rfl⟩⟩
    · simp at h2
  · simp [validStep] at h2
    split at h2
    · next rest =>
      simp at h2
      exact ⟨'{', by simp [h2], Or.inr (Or.inl ⟨rfl, rfl⟩)⟩
    · simp at h2
  · simp [validStep] at h2
    split at h2
    · next rest =>
      simp at h2
      exact ⟨'[', by simp [h2], Or.inr (Or.inr ⟨rfl, rfl⟩)⟩
    · simp at h2

theorem validStep_skip (st : List Char) (c : Char) (h : isBracket c = false) :
    validStep st c = some st := by
  simp only [isBracket, isOpenBracket, isCloseBracket, Bool.or_eq_false_iff,
    decide_eq_false_iff_not] at h
  obtain ⟨⟨⟨h1, h2⟩, h3⟩, ⟨h4, h5⟩, h6⟩ := h
  simp [validStep, h1, h2, h3, h4, h5, h6]

theorem validRun_append (u v st : List Char) :
    validRun (u ++ v) st = (validRun u st).bind (validRun v) := by
  induction u generalizing st with
  | nil => simp [validRun]
  | cons c u ih =>
    simp only [List.cons_append, validRun]
    cases validStep st c with
    | none => simp
    | some st2 => simp [ih]

theorem validRun_filter (s : List Char) : ∀ st, validRun s st = validRun (s.filter isBracket) st := by
  induction s with
  | nil => intro st; rfl
  | cons c cs ih =>
    intro st
    by_cases hb : isBracket c = true
    · rw [List.filter_cons_of_pos hb]
      simp only [validRun]
      cases validStep st c with
      | none => rfl
      | some st2 => exact ih st2
    · have hb' : isBracket c = false := by simpa using hb
      rw [List.filter_cons_of_neg (by simp [hb'])]
      simp only [validRun, validStep_skip st c hb']
      exact ih st

theorem balanced_validRun {w : List Char} (hw : Balanced w) :
    ∀ st, validRun w st = some st := by
  induction hw with
  | nil => intro st; rfl
  | wrap o c w' hoc hw' ih =>
    intro st
    rcases hoc with ⟨rfl, rfl⟩ | ⟨rfl, rfl⟩ | ⟨rfl, rfl⟩ <;>
      simp [validRun, validStep, validRun_append, ih]
  | append u v hu hv ihu ihv =>
    intro st
    simp [validRun_append, ihu, ihv]

theorem balanced_insert {z : List Char} (hz : Balanced z) :
    ∀ {x : List Char}, Balanced x → ∀ u v, x = u ++ v → Balanced (u ++ z ++ v) := by
  intro x hx
  induction hx with
  | nil =>
    intro u v huv
    obtain ⟨rfl, rfl⟩ := List.append_eq_nil.mp huv.symm
    simpa using hz
  | wrap o c w hoc hw ih =>
    intro u v huv
    cases u with
    | nil =>
      simp only [List.nil_append] at huv ⊢
      subst huv
      exact Balanced.append z _ hz (Balanced.wrap o c w hoc hw)
    | cons u0 u' =>
      injection huv with h1 h2
      subst h1
      simp only [List.append_eq] at h2
      rcases v.eq_nil_or_concat with rfl | ⟨v', c', rfl⟩
      · rw [List.append_nil] at h2
        subst h2
        simpa using Balanced.append _ z (Balanced.wrap o c w hoc hw) hz
      · rw [List.concat_eq_append, ← List.append_assoc] at h2
        obtain ⟨h4, h5⟩ := List.append_inj' h2 rfl
        have hc : c = c' := by injection h5
        subst hc
        have hb := ih u' v' h4
        have hb2 := Balanced.wrap o c _ hoc hb
        simp only [List.concat_eq_append]
        simpa [List.append_assoc] using hb2
  | append x1 x2 h1 h2 ih1 ih2 =>
    intro u v huv
    rcases List.append_eq_append_iff.mp huv.symm with ⟨a', ha1, ha2⟩ | ⟨c', hc1, hc2⟩
    · subst ha2
      have := Balanced.append _ _ (ih1 u a' ha1) h2
      simpa [List.append_assoc] using this
    · subst hc1
      have := Balanced.append _ _ h1 (ih2 c' v hc2)
      simpa [List.append_assoc] using this

theorem validRun_balanced :
    ∀ w : List Char, (∀ x ∈ w, isBracket x = true) →
      ∀ st, validRun w st = some [] → Balanced (st.reverse ++ w) := by
  intro w
  induction w with
  | nil =>
    intro _ st h
    have hst : st = [] := by simpa [validRun] using h
    subst hst
    exact Balanced.nil
  | cons c w' ih =>
    intro hb st h
    have hbc : isBracket c = true := hb c (List.mem_cons_self c w')
    have hb' : ∀ x ∈ w', isBracket x = true := fun x hx => hb x (List.mem_cons_of_mem c hx)
    by_cases hoc : isOpenBracket c = true
    · simp only [validRun, validStep_open st c hoc] at h
      have := ih hb' (c :: st) h
      simpa [List.append_assoc] using this
    · have hcc : isCloseBracket c = true := by
        have := hbc
        simp only [isBracket, Bool.or_eq_true] at this
        rcases this with h' | h'
        · exact absurd h' hoc
        · exact h'
      simp only [validRun] at h
      cases hstep : validStep st c with
      | none => rw [hstep] at h; simp at h
      | some st2 =>
        rw [hstep] at h
        simp only [] at h
        obtain ⟨o, rfl, hmp⟩ := validStep_close st st2 c hcc hstep
        have hbal := ih hb' st2 h
        have hz : Balanced [o, c] := by
          have := Balanced.wrap o c [] hmp Balanced.nil
          simpa using this
        have := balanced_insert hz hbal st2.reverse w' rfl
        simpa [List.append_assoc] using this

/-! ### Claim theorems about `is_valid` -/

/-- C2: for every string `s`, `is_valid s` is `true` iff the subsequence of
`s` consisting only of the six bracket characters is a well-formed nested
bracket sequence; in particular on the six examples of the spec. -/
theorem is_valid_iff_balanced :
    (∀ s : List Char, is_valid s = true ↔ Balanced (s.filter isBracket)) ∧
    is_valid ['(', ')'] = true ∧
    is_valid ['(', ')', '[', ']', '{', '}'] = true ∧
    is_valid ['(', ']'] = false ∧
    is_valid ['(', '[', ')', ']'] = false ∧
    is_valid ['{', '[', ']', '}'] = true ∧
    is_valid [] = true := by
  refine ⟨?_, by decide, by decide, by decide, by decide, by decide, by decide⟩
  intro s
  constructor
  · intro h
    have h0 : validRun s [] = some [] := by
      unfold is_valid at h
      cases hrun : validRun s [] with
      | none => rw [hrun] at h; simp at h
      | some stck =>
        rw [hrun] at h
        simp only [List.isEmpty_iff] at h
        rw [h]
    rw [validRun_filter] at h0
    have := validRun_balanced (s.filter isBracket)
      (fun x hx => List.of_mem_filter hx) [] h0
    simpa using this
  · intro h
    have hrun := balanced_validRun h ([] : List Char)
    unfold is_valid
    rw [validRun_filter, hrun]
    rfl

/-- C9: `is_valid` depends only on the bracket characters of its input:
filtering out non-bracket characters does not change the result, and
inserting or deleting any single non-bracket character anywhere never
changes the result. -/
theorem is_valid_ignores_non_brackets :
    (∀ s : List Char, is_valid s = is_valid (s.filter isBracket)) ∧
    (∀ (u v : List Char) (c : Char), isBracket c = false →
      is_valid (u ++ c :: v) = is_valid (u ++ v)) := by
  have hfil : ∀ s : List Char, is_valid s = is_valid (s.filter isBracket) := by
    intro s
    unfold is_valid
    rw [← validRun_filter]
  refine ⟨hfil, ?_⟩
  intro u v c hc
  rw [hfil (u ++ c :: v), hfil (u ++ v)]
  have : (u ++ c :: v).filter isBracket = (u ++ v).filter isBracket := by
    simp [List.filter_append, List.filter_cons, hc]
  rw [this]

/-- Witness for C9: deleting the non-bracket character `a` from `(a)` leaves
the result unchanged. -/
theorem is_valid_ignores_non_brackets_witness :
    is_valid (['('] ++ 'a' :: [')']) = is_valid (['('] ++ [')']) :=
  is_valid_ignores_non_brackets.2 ['('] [')'] 'a' (by decide)

/-- Auxiliary invariant: running the loop from a stack of opening brackets
can only produce a stack of opening brackets — only `'('`, `'{'`, `'['` are
ever pushed. -/
theorem validRun_openers :
    ∀ p st st' : List Char, (∀ c ∈ st, isOpenBracket c = true) →
      validRun p st = some st' → ∀ c ∈ st', isOpenBracket c = true := by
  intro p
  induction p with
  | nil =>
    intro st st' hst h
    have : st = st' := by simpa [validRun] using h
    subst this
    exact hst
  | cons c cs ih =>
    intro st st' hst h
    simp only [validRun] at h
    cases hstep : validStep st c with
    | none => rw [hstep] at h; simp at h
    | some st2 =>
      rw [hstep] at h
      simp only [] at h
      refine ih st2 st' ?_ h
      by_cases hoc : isOpenBracket c = true
      · rw [validStep_open st c hoc] at hstep
        injection hstep with hstep
        subst hstep
        intro x hx
        rcases List.mem_cons.mp hx with rfl | hx
        · exact hoc
        · exact hst x hx
      · by_cases hcc : isCloseBracket c = true
        · obtain ⟨o, rfl, _⟩ := validStep_close st st2 c hcc hstep
          intro x hx
          exact hst x (List.mem_cons_of_mem o hx)
        · have hb : isBracket c = false := by
            simp only [isBracket, Bool.or_eq_false_iff]
            exact ⟨by simpa using hoc, by simpa using hcc⟩
          rw [validStep_skip st c hb] at hstep
          injection hstep with hstep
          subst hstep
          exact hst

/-- C10: at every point while `is_valid` processes a string — i.e. after any
prefix `p` of the input that has not yet caused an early `return false` —
every character held on the stack is one of the three opening brackets;
closing brackets and non-bracket characters are never pushed. -/
theorem is_valid_stack_openers (p st : List Char) (h : validRun p [] = some st) :
    ∀ c ∈ st, c = '(' ∨ c = '{' ∨ c = '[' := by
  intro c hc
  have := validRun_openers p [] st (by simp) h c hc
  simpa [isOpenBracket, or_assoc] using this

/-- Witness for C10: after the prefix `'(' '['` the stack is `['[', '(']`,
and its top `'['` is an opener. -/
theorem is_valid_stack_openers_witness :
    '[' = '(' ∨ '[' = '{' ∨ '[' = '[' :=
  is_valid_stack_openers ['(', '['] ['[', '('] (by decide) '[' (by decide)

/-! ### Lemmas about `two_sum` -/

theorem wrap32_in_range (x : Int) : InRange32 (wrap32 x) := by
  unfold wrap32 InRange32
  omega

theorem complement_eq_iff {a t : Int} (b : Int) (ha : InRange32 a) (ht : InRange32 t) :
    a = wrap32 (t - b) ↔ wrap32 (a + b) = t := by
  unfold wrap32 InRange32 at *
  omega

theorem getD_mem_of_lt {l : List Int} {k : Nat} (h : k < l.length) : l.getD k 0 ∈ l := by
  rw [List.getD_eq_getElem l 0 h]
  exact List.getElem_mem h

theorem mapInv_nil (nums : List Int) : MapInv nums 0 [] := by
  intro key v
  simp [lookupIdx]

theorem mapInv_step {nums : List Int} {i : Nat} {m : List (Int × Nat)}
    (h : MapInv nums i m) : MapInv nums (i + 1) ((nums.getD i 0, i) :: m) := by
  intro key v
  simp only [lookupIdx]
  by_cases hk : nums.getD i 0 = key
  · rw [if_pos hk]
    constructor
    · intro hv
      injection hv with hv
      subst hv
      exact ⟨by omega, hk, fun k hk1 hk2 => by omega⟩
    · rintro ⟨hv1, hv2, hv3⟩
      by_cases hvi : v = i
      · rw [hvi]
      · exact absurd hk (hv3 i (by omega) (by omega))
  · rw [if_neg hk]
    rw [h key v]
    constructor
    · rintro ⟨hv1, hv2, hv3⟩
      refine ⟨by omega, hv2, fun k hk1 hk2 => ?_⟩
      by_cases hki : k = i
      · rw [hki]
        exact hk
      · exact hv3 k hk1 (by omega)
    · rintro ⟨hv1, hv2, hv3⟩
      have hvi : v ≠ i := fun h' => hk (h' ▸ hv2)
      exact ⟨by omega, hv2, fun k hk1 hk2 => hv3 k hk1 (by omega)⟩

theorem mapInv_lookup_none {nums : List Int} {i : Nat} {m : List (Int × Nat)}
    (h : MapInv nums i m) (key : Int) (hnone : ∀ k, k < i → nums.getD k 0 ≠ key) :
    lookupIdx m key = none := by
  cases hl : lookupIdx m key with
  | none => rfl
  | some v =>
    obtain ⟨hv1, hv2, _⟩ := (h key v).mp hl
    exact absurd hv2 (hnone v hv1)

theorem twoSumGo_found (nums : List Int) (target : Int) :
    ∀ (rest : List Int) (i : Nat) (m : List (Int × Nat)),
      rest = nums.drop i → MapInv nums i m →
      ∀ j k, i ≤ j → j < nums.length → k < j →
        nums.getD k 0 = wrap32 (target - nums.getD j 0) →
        (∀ k', k < k' → k' < j → nums.getD k' 0 ≠ wrap32 (target - nums.getD j 0)) →
        (∀ j' k', i ≤ j' → j' < j → k' < j' →
          nums.getD k' 0 ≠ wrap32 (target - nums.getD j' 0)) →
        twoSumGo target rest i m = [k, j] := by
  intro rest
  induction rest with
  | nil =>
    intro i m hdrop hinv j k hij hjlen hkj hkey hkmax hjmin
    have : nums.length ≤ i := List.drop_eq_nil_iff.mp hdrop.symm
    omega
  | cons num rest' ih =>
    intro i m hdrop hinv j k hij hjlen hkj hkey hkmax hjmin
    have hilen : i < nums.length := by
      by_contra h'
      rw [List.drop_eq_nil_iff.mpr (by omega)] at hdrop
      exact List.cons_ne_nil num rest' hdrop
    have hcons := List.drop_eq_getElem_cons hilen
    rw [hcons] at hdrop
    injection hdrop with hnum hrest
    have hnum' : num = nums.getD i 0 := by
      rw [hnum, List.getD_eq_getElem nums 0 hilen]
    rcases Nat.lt_or_ge i j with hij' | hij'
    · -- not yet at j: the lookup misses and the loop advances
      have hmiss : lookupIdx m (wrap32 (target - num)) = none := by
        refine mapInv_lookup_none hinv _ fun k' hk' => ?_
        rw [hnum']
        exact hjmin i k' (le_refl i) hij' hk'
      simp only [twoSumGo, hmiss]
      refine ih (i + 1) ((num, i) :: m) hrest ?_ j k (by omega) hjlen hkj hkey hkmax ?_
      · rw [hnum']
        exact mapInv_step hinv
      · intro j' k' hj'1 hj'2 hk'
        exact hjmin j' k' (by omega) hj'2 hk'
    · -- i = j: the lookup hits exactly the stored index k
      have hijeq : i = j := by omega
      subst hijeq
      have hhit : lookupIdx m (wrap32 (target - num)) = some k := by
        rw [hnum']
        exact ((hinv (wrap32 (target - nums.getD i 0)) k).mpr ⟨hkj, hkey, hkmax⟩)
      simp only [twoSumGo, hhit]

theorem twoSumGo_not_found (nums : List Int) (target : Int) :
    ∀ (rest : List Int) (i : Nat) (m : List (Int × Nat)),
      rest = nums.drop i → MapInv nums i m →
      (∀ j k, i ≤ j → j < nums.length → k < j →
        nums.getD k 0 ≠ wrap32 (target - nums.getD j 0)) →
      twoSumGo target rest i m = [] := by
  intro rest
  induction rest with
  | nil =>
    intro i m _ _ _
    rfl
  | cons num rest' ih =>
    intro i m hdrop hinv hno
    have hilen : i < nums.length := by
      by_contra h'
      rw [List.drop_eq_nil_iff.mpr (by omega)] at hdrop
      exact List.cons_ne_nil num rest' hdrop
    have hcons := List.drop_eq_getElem_cons hilen
    rw [hcons] at hdrop
    injection hdrop with hnum hrest
    have hnum' : num = nums.getD i 0 := by
      rw [hnum, List.getD_eq_getElem nums 0 hilen]
    have hmiss : lookupIdx m (wrap32 (target - num)) = none := by
      refine mapInv_lookup_none hinv _ fun k' hk' => ?_
      rw [hnum']
      exact hno i k' (le_refl i) hilen hk'
    simp only [twoSumGo, hmiss]
    refine ih (i + 1) ((num, i) :: m) hrest ?_ ?_
    · rw [hnum']
      exact mapInv_step hinv
    · intro j k hj1 hj2 hk
      exact hno j k (by omega) hj2 hk

/-- Core behaviour of `two_sum` when some position pairs with an earlier one
(stated via the complement the code computes): the scan stops at the least
such position `j`, returning it with the largest earlier index holding the
complement — the binding stored by the overwriting inserts. -/
theorem two_sum_found_core (nums : List Int) (target : Int)
    (hex : ∃ j, j < nums.length ∧ ∃ k, k < j ∧
      nums.getD k 0 = wrap32 (target - nums.getD j 0)) :
    ∃ i j, two_sum nums target = [i, j] ∧ i < j ∧ j < nums.length ∧
      nums.getD i 0 = wrap32 (target - nums.getD j 0) ∧
      (∀ k, i < k → k < j → nums.getD k 0 ≠ wrap32 (target - nums.getD j 0)) ∧
      (∀ j' k, j' < j → k < j' →
        nums.getD k 0 ≠ wrap32 (target - nums.getD j' 0)) := by
  classical
  set P : Nat → Prop := fun j => j < nums.length ∧ ∃ k, k < j ∧
    nums.getD k 0 = wrap32 (target - nums.getD j 0) with hP
  have hexP : ∃ j, P j := hex
  set j0 := Nat.find hexP with hj0
  obtain ⟨hj0len, k1, hk1j, hk1key⟩ := Nat.find_spec hexP
  set Q : Nat → Prop := fun k => nums.getD k 0 = wrap32 (target - nums.getD j0 0) with hQ
  have hk1le : k1 ≤ j0 - 1 := by omega
  set k0 := Nat.findGreatest Q (j0 - 1) with hk0
  have hk0key : Q k0 := Nat.findGreatest_spec hk1le hk1key
  have hk0lt : k0 < j0 := by
    have := Nat.findGreatest_le (P := Q) (j0 - 1)
    omega
  have hk0max : ∀ k', k0 < k' → k' < j0 →
      nums.getD k' 0 ≠ wrap32 (target - nums.getD j0 0) := by
    intro k' h1 h2
    exact Nat.findGreatest_is_greatest h1 (by omega)
  have hj0min : ∀ j' k', 0 ≤ j' → j' < j0 → k' < j' →
      nums.getD k' 0 ≠ wrap32 (target - nums.getD j' 0) := by
    intro j' k' _ hj' hk' hkey
    exact Nat.find_min hexP hj' ⟨by omega, k', hk', hkey⟩
  refine ⟨k0, j0, ?_, hk0lt, hj0len, hk0key, hk0max,
    fun j' k hj' hk => hj0min j' k (by omega) hj' hk⟩
  exact twoSumGo_found nums target nums 0 [] rfl (mapInv_nil nums) j0 k0
    (by omega) hj0len hk0lt hk0key hk0max hj0min

theorem wrap32_eq_self {x : Int} (h : InRange32 x) : wrap32 x = x := by
  unfold wrap32 InRange32 at *
  omega

/-! ### Claim theorems about `two_sum` -/

/-- C1: whenever some pair of positions `i < j` has `nums[i] + nums[j] ==
target` (i32 arithmetic), `two_sum` returns exactly two indices that are
distinct, within bounds, and whose values sum to `target`; in particular a
value is never paired with itself at a single index. -/
theorem two_sum_returns_valid_pair (nums : List Int) (target : Int)
    (hr : ∀ x ∈ nums, InRange32 x) (ht : InRange32 target)
    (hex : ∃ i j, i < j ∧ j < nums.length ∧
      wrap32 (nums.getD i 0 + nums.getD j 0) = target) :
    ∃ i j, two_sum nums target = [i, j] ∧ i ≠ j ∧
      i < nums.length ∧ j < nums.length ∧
      wrap32 (nums.getD i 0 + nums.getD j 0) = target := by
  obtain ⟨i1, j1, hij, hjlen, hsum⟩ := hex
  have hkey : nums.getD i1 0 = wrap32 (target - nums.getD j1 0) :=
    (complement_eq_iff (nums.getD j1 0) (hr _ (getD_mem_of_lt (by omega))) ht).mpr hsum
  obtain ⟨i, j, hres, hij', hjlen', hkey', -, -⟩ :=
    two_sum_found_core nums target ⟨j1, hjlen, i1, hij, hkey⟩
  refine ⟨i, j, hres, by omega, by omega, hjlen', ?_⟩
  exact (complement_eq_iff (nums.getD j 0) (hr _ (getD_mem_of_lt (by omega))) ht).mp hkey'

/-- Witness for C1 at the spec examples `[2,7,11,15]`, target 9 (and the
duplicate example `[3,3]`, target 6). -/
theorem two_sum_returns_valid_pair_witness :
    two_sum [2, 7, 11, 15] 9 ≠ [] ∧ two_sum [2, 7, 11, 15] 9 = [0, 1] ∧
    two_sum [3, 3] 6 = [0, 1] := by
  refine ⟨?_, by decide, by decide⟩
  obtain ⟨i, j, hres, -, -, -, -⟩ := two_sum_returns_valid_pair [2, 7, 11, 15] 9
    (by decide) (by decide) ⟨0, 1, by decide, by decide, by decide⟩
  rw [hres]
  exact List.cons_ne_nil i [j]

/-- C5: `two_sum` returns the first pair in scan order: the second returned
index `j` is the least position that pairs with an earlier one, the first
returned index holds the complement `target - nums[j]`, and it is the
LAST (overwrite policy of `HashMap::insert`) earlier position holding that
complement; no earlier `j'` pairs with any position before it. -/
theorem two_sum_first_match (nums : List Int) (target : Int)
    (hr : ∀ x ∈ nums, InRange32 x) (ht : InRange32 target)
    (hex : ∃ i j, i < j ∧ j < nums.length ∧
      wrap32 (nums.getD i 0 + nums.getD j 0) = target) :
    ∃ i j, two_sum nums target = [i, j] ∧ i < j ∧ j < nums.length ∧
      nums.getD i 0 = wrap32 (target - nums.getD j 0) ∧
      (∀ k, i < k → k < j → nums.getD k 0 ≠ wrap32 (target - nums.getD j 0)) ∧
      (∀ j' k, j' < j → k < j' →
        wrap32 (nums.getD k 0 + nums.getD j' 0) ≠ target) := by
  obtain ⟨i1, j1, hij, hjlen, hsum⟩ := hex
  have hkey : nums.getD i1 0 = wrap32 (target - nums.getD j1 0) :=
    (complement_eq_iff (nums.getD j1 0) (hr _ (getD_mem_of_lt (by omega))) ht).mpr hsum
  obtain ⟨i, j, hres, hij', hjlen', hkey', hkmax, hjmin⟩ :=
    two_sum_found_core nums target ⟨j1, hjlen, i1, hij, hkey⟩
  refine ⟨i, j, hres, hij', hjlen', hkey', hkmax, ?_⟩
  intro j' k hj' hk hsum'
  exact hjmin j' k hj' hk
    ((complement_eq_iff (nums.getD j' 0) (hr _ (getD_mem_of_lt (by omega))) ht).mpr hsum')

/-- Witness for C5 on `[3,3,6]`, target 9: positions 0 and 1 both hold the
complement 3 of position 2; the overwrite policy returns the later one,
so the result is `[1, 2]`. -/
theorem two_sum_first_match_witness :
    two_sum [3, 3, 6] 9 ≠ [] ∧ two_sum [3, 3, 6] 9 = [1, 2] := by
  refine ⟨?_, by decide⟩
  obtain ⟨i, j, hres, -, -, -, -, -⟩ := two_sum_first_match [3, 3, 6] 9
    (by decide) (by decide) ⟨0, 2, by decide, by decide, by decide⟩
  rw [hres]
  exact List.cons_ne_nil i [j]

/-- C7: `two_sum` returns the empty list iff no pair of positions `i < j`
has `nums[i] + nums[j] == target` (i32 arithmetic); the empty list is the
normal no-solution return value. -/
theorem two_sum_empty_iff (nums : List Int) (target : Int)
    (hr : ∀ x ∈ nums, InRange32 x) (ht : InRange32 target) :
    two_sum nums target = [] ↔
      ¬∃ i j, i < j ∧ j < nums.length ∧
        wrap32 (nums.getD i 0 + nums.getD j 0) = target := by
  constructor
  · intro hempty hex
    obtain ⟨i1, j1, hij, hjlen, hsum⟩ := hex
    have hkey : nums.getD i1 0 = wrap32 (target - nums.getD j1 0) :=
      (complement_eq_iff (nums.getD j1 0) (hr _ (getD_mem_of_lt (by omega))) ht).mpr hsum
    obtain ⟨i, j, hres, -, -, -, -, -⟩ :=
      two_sum_found_core nums target ⟨j1, hjlen, i1, hij, hkey⟩
    rw [hres] at hempty
    exact List.cons_ne_nil i [j] hempty
  · intro hno
    apply twoSumGo_not_found nums target nums 0 [] rfl (mapInv_nil nums)
    intro j k _ hjlen hkj hkey
    exact hno ⟨k, j, hkj, hjlen,
      (complement_eq_iff (nums.getD j 0) (hr _ (getD_mem_of_lt (by omega))) ht).mp hkey⟩

/-- Witness for C7 at the spec example: `[1,2,3]` with target 100 has no
pair, and the result is the empty list. -/
theorem two_sum_empty_iff_witness :
    two_sum [1, 2, 3] 100 = [] := by
  refine (two_sum_empty_iff [1, 2, 3] 100 (by decide) (by decide)).mpr ?_
  rintro ⟨i, j, hij, hjlen, hsum⟩
  simp only [List.length_cons, List.length_nil] at hjlen
  interval_cases j <;> interval_cases i <;> exact absurd hsum (by decide)

/-- C6 counterexample: with overflow checks enabled (debug profile), the
complement computation `target - nums[j]` panics on `nums = [1]`,
`target = -2^31` (the difference `-2^31 - 1` leaves the i32 range), so
`two_sum` is not panic-free for ALL i32 inputs; under release (wrapping)
semantics the same input returns normally. -/
theorem two_sumChecked_overflow_counterexample :
    two_sumChecked [1] (-2147483648) = none ∧
    two_sum [1] (-2147483648) = [] := by
  constructor
  · decide
  · decide

/-- C6 amended: `is_valid` and `merge_two_lists` are total on their whole
domains (they are total functions of this development), and `two_sum` never
fails provided every difference `target - num` for `num` in `nums` stays in
the i32 range — in that case the overflow-checking (debug) run returns
normally and agrees with the wrapping (release) run. -/
theorem two_sum_total_without_overflow (nums : List Int) (target : Int)
    (h : ∀ num ∈ nums, InRange32 (target - num)) :
    two_sumChecked nums target = some (two_sum nums target) := by
  have go : ∀ (rest : List Int) (i : Nat) (m : List (Int × Nat)),
      (∀ num ∈ rest, InRange32 (target - num)) →
      twoSumGoChecked target rest i m = some (twoSumGo target rest i m) := by
    intro rest
    induction rest with
    | nil => intro i m _; rfl
    | cons num rest' ih =>
      intro i m hall
      have h1 : InRange32 (target - num) := hall num (List.mem_cons_self num rest')
      have hsub : checkedSub32 target num = some (target - num) := by
        rw [checkedSub32, if_pos h1]
      have hw : wrap32 (target - num) = target - num := wrap32_eq_self h1
      simp only [twoSumGoChecked, twoSumGo, hsub, hw]
      cases lookupIdx m (target - num) with
      | some idx => rfl
      | none =>
        exact ih (i + 1) ((num, i) :: m)
          (fun x hx => hall x (List.mem_cons_of_mem num hx))
  exact go nums 0 [] h

/-- Witness for the amended C6: no difference overflows on the spec example,
and debug agrees with release there. -/
theorem two_sum_total_without_overflow_witness :
    two_sumChecked [2, 7, 11, 15] 9 = some (two_sum [2, 7, 11, 15] 9) :=
  two_sum_total_without_overflow [2, 7, 11, 15] 9 (by decide)

end LeetCode
